import Mathlib

/-!
# mini-crs: memory-event model of the vulnerable routines

Shallow embedding of `ossfuzz-target/src/vuln_lib.c`, `ossfuzz-target/fuzz/fuzz_target.cc`
and `fuzzer/harnesses/instant_crash_afl.c`.

Every C routine is translated into a function that returns the list of memory
events it performs, in program order, assuming that execution continues after a
memory error.  A separate checker classifies events as violations (out of
bounds, use after free, double free, null access) and `run` interprets a trace
under a trap policy: a null access always faults, any other violation faults
exactly when the policy says so (a sanitizer build traps on all of them, a
plain build on few).

Conventions
* `size_t` is 64 bits wide, `uint32_t`/`unsigned int` 32 bits; the arithmetic is
  on `Nat` with an explicit `% 2 ^ 64` / `% 2 ^ 32`.
* The input buffer is a `List Byte`; the `size` argument is passed separately,
  exactly as in C.  A null `data` pointer is `none`.
* The mutated buffer of `LLVMFuzzerTestOneInput` is handed to the second
  `fuzz_entry` call as the list of its first `copy` bytes.
* `malloc` is an oracle: `World.mallocOk k` says whether the `k`-th call of
  `malloc` (counted from the start of the run) returns a non-null block.  The
  block returned by the `k`-th call has identity `k`.
-/

namespace MiniCrs

/-- One `uint8_t`. -/
abbrev Byte := Fin 256

/-- Reduction to `size_t` (64 bit). -/
def wrap64 (n : Nat) : Nat := n % 2 ^ 64

/-- Reduction to `uint32_t` / `unsigned int`. -/
def wrap32 (n : Nat) : Nat := n % 2 ^ 32

/-- Reduction to `uint16_t`. -/
def wrap16 (n : Nat) : Nat := n % 2 ^ 16

/-- Largest object size of the platform, `PTRDIFF_MAX`. -/
def PTRDIFF_MAX : Nat := 2 ^ 63 - 1

/-- The value of `data[i]`; the control flow of the routines only ever depends on
indices below `size`. -/
def rd (data : List Byte) (i : Nat) : Byte := data.getD i 0

/-- A call `f(data, size)` as the harnesses make it: `data` points to exactly
`size` readable bytes and the object has a size the platform allows. -/
def validInput (data : List Byte) (size : Nat) : Prop :=
  data.length = size ∧ size ≤ PTRDIFF_MAX

instance (data : List Byte) (size : Nat) : Decidable (validInput data size) := by
  unfold validInput; exact inferInstance

/-- The local arrays of the program. -/
inductive StackVar
  | buf       -- `char buf[64]` of `copy_to_stack`
  | fmt       -- `char fmt[128]` of `unchecked_format`
  | flipped   -- `uint8_t flipped[512]` of `LLVMFuzzerTestOneInput`
  deriving DecidableEq, Repr

/-- A memory object together with its capacity in bytes. -/
inductive Region
  | input (cap : Nat)                  -- the caller's buffer behind `data`
  | stack (v : StackVar) (cap : Nat)   -- a local array
  | heap (id : Nat) (cap : Nat)        -- the block of the `id`-th `malloc` call
  | null                               -- address 0
  deriving DecidableEq, Repr

/-- Memory events, in the order the program performs them. -/
inductive Event
  | malloc (id : Nat) (n : Nat) (ok : Bool)   -- `id`-th call `malloc(n)`, `ok` = non-null
  | load (r : Region) (off : Nat) (len : Nat)   -- read `len` bytes at `r + off`
  | store (r : Region) (off : Nat) (len : Nat)  -- write `len` bytes at `r + off`
  | free (id : Nat)                            -- `free` of block `id`
  | printf (format : List Byte)                -- `printf(format)`
  | puts                                       -- `puts("")`
  | enter (data : Option (List Byte)) (size : Nat)  -- entry into `fuzz_entry(data, size)`
  deriving DecidableEq, Repr

/-- The environment of a run. -/
structure World where
  /-- Whether the `k`-th call of `malloc` succeeds. -/
  mallocOk : Nat → Bool
  /-- Contents of uninitialised stack memory. -/
  uninit : Nat → Byte

/-- Number of `malloc` calls in a trace. -/
def mallocs : List Event → Nat
  | [] => 0
  | .malloc _ _ _ :: es => mallocs es + 1
  | _ :: es => mallocs es

/-! ## Violations and outcomes -/

/-- Whether the access `[off, off + len)` lies inside the region. -/
def Region.inBounds : Region → Nat → Nat → Bool
  | .input cap, off, len => decide (off + len ≤ cap)
  | .stack _ cap, off, len => decide (off + len ≤ cap)
  | .heap _ cap, off, len => decide (off + len ≤ cap)
  | .null, _, _ => false

/-- Kinds of memory error. -/
inductive Violation
  | nullAccess
  | outOfBounds (r : Region) (off : Nat) (len : Nat)
  | useAfterFree (id : Nat) (off : Nat)
  | doubleFree (id : Nat)
  deriving DecidableEq, Repr

/-- Violation committed by an access to `r`, given the blocks freed so far.  A
temporal error takes precedence over a spatial one. -/
def checkAccess (freed : List Nat) (r : Region) (off len : Nat) : Option Violation :=
  match r with
  | .null => some .nullAccess
  | .heap id cap =>
      if id ∈ freed then some (.useAfterFree id off)
      else if off + len ≤ cap then none
      else some (.outOfBounds r off len)
  | _ => if r.inBounds off len then none else some (.outOfBounds r off len)

/-- Violation committed by one event, given the blocks freed so far. -/
def check (freed : List Nat) : Event → Option Violation
  | .load r off len => checkAccess freed r off len
  | .store r off len => checkAccess freed r off len
  | .free id => if id ∈ freed then some (.doubleFree id) else none
  | _ => none

/-- The freed blocks after an event. -/
def freedAfter (freed : List Nat) : Event → List Nat
  | .free id => id :: freed
  | _ => freed

/-- All violations of a trace, in order. -/
def violations : List Nat → List Event → List Violation
  | _, [] => []
  | freed, e :: es =>
      match check freed e with
      | some v => v :: violations (freedAfter freed e) es
      | none => violations (freedAfter freed e) es

/-- Temporal violations are use after free and double free. -/
def Violation.isTemporal : Violation → Bool
  | .useAfterFree _ _ => true
  | .doubleFree _ => true
  | _ => false

/-- How a run ends. -/
inductive Outcome
  | returned
  | faulted
  deriving DecidableEq, Repr

/-- Whether a violation stops the program: a null access always does, any other
violation according to the policy. -/
def stops (traps : Violation → Bool) : Violation → Bool
  | .nullAccess => true
  | v => traps v

/-- Outcome of a trace under a trap policy. -/
def run (traps : Violation → Bool) : List Nat → List Event → Outcome
  | _, [] => .returned
  | freed, e :: es =>
      match check freed e with
      | some v => if stops traps v then .faulted else run traps (freedAfter freed e) es
      | none => run traps (freedAfter freed e) es

/-! ## `vuln_lib.c` -/

/-- Model of `copy_to_stack`: `memcpy(buf, data, size)` into `char buf[64]`, the read of
`buf[0]` (which now holds `data[0]`), then the extra write `buf[size - sizeof(buf)] = 'X'`
when `buf[0] == '!'` and `size > 64`. -/
def copy_to_stack (data : List Byte) (size : Nat) : List Event :=
  if size = 0 then []
  else
    [.load (.input data.length) 0 size, .store (.stack .buf 64) 0 size,
        .load (.stack .buf 64) 0 1] ++
      (if rd data 0 = 33 ∧ size > 64 then [.store (.stack .buf 64) (size - 64) 1] else [])

/-- The `uint32_t len` of `heap_overflow`: big-endian value of bytes 0..3, computed in
`int` and converted to `uint32_t`. -/
def heap_len (data : List Byte) : Nat :=
  wrap32 ((rd data 0).val <<< 24 ||| (rd data 1).val <<< 16 ||| (rd data 2).val <<< 8
    ||| (rd data 3).val)

/-- The `size_t repeat` of `heap_overflow`: `data[4] * 16u`. -/
def heap_repeat (data : List Byte) : Nat := wrap64 (wrap32 ((rd data 4).val * 16))

/-- The `size_t total` of `heap_overflow`: `len * repeat` in `size_t`. -/
def heap_total (data : List Byte) : Nat := wrap64 (heap_len data * heap_repeat data)

/-- Model of `heap_overflow`; `k` is the number of `malloc` calls made before. -/
def heap_overflow (w : World) (k : Nat) (data : List Byte) (size : Nat) : List Event :=
  if size < 8 then []
  else
    let total := heap_total data
    let buf := Region.heap k total
    [.load (.input data.length) 0 4, .load (.input data.length) 4 1,
      .malloc k total (w.mallocOk k)] ++
      (if w.mallocOk k = false then []
       else
        [.load (.input data.length) 4 (size - 4), .store buf 0 (size - 4)] ++
          (if total > 0 then [.load buf (total - 1) 1, .store buf (total - 1) 1] else []) ++
          [.free k])

/-- Model of `temporal_issues`; `k` is the number of `malloc` calls made before. -/
def temporal_issues (w : World) (k : Nat) (data : List Byte) (size : Nat) : List Event :=
  let alloc_size := wrap64 (size + 32)
  let leaky := Region.heap k alloc_size
  [.malloc k alloc_size (w.mallocOk k)] ++
    (if w.mallocOk k = false then []
     else
      [.load (.input data.length) 0 size, .store leaky 0 size, .free k] ++
        (if size < 4 then [.store leaky 2 1] else []) ++
        (if size ≥ 4 then [.free k] else []))

/-- Model of `instant_crash`: the write `*ptr = 42` through `volatile int *ptr = 0`
under the guard `size != 10`; `data` is unused. -/
def instant_crash (_data : Option (List Byte)) (size : Nat) : List Event :=
  if size ≠ 10 then [.store .null 0 4] else []

/-- Reduction to `uint8_t`. -/
def wrap8 (n : Nat) : Nat := n % 2 ^ 8

/-- The `uint16_t len` of a chunk: big-endian value of the two bytes at `offset`. -/
def chunk_len (data : List Byte) (offset : Nat) : Nat :=
  wrap16 ((rd data offset).val <<< 8 ||| (rd data (offset + 1)).val)

/-- The reads `data[offset]` and `data[offset + 1]` of the length prefix. -/
def chunk_reads (data : List Byte) (offset : Nat) : List Event :=
  [.load (.input data.length) offset 1, .load (.input data.length) (offset + 1) 1]

/-- The rest of an iteration of `parse_chunks` once `malloc(len)` has succeeded:
`memcpy(chunk, data + offset, len + 1)`, then for `len > 0` the read of `chunk[0]` (which
holds `data[offset]`) and, when it is `'#'`, the write `chunk[len] = '!'`, and
`free(chunk)`; `offset` is the cursor after the prefix. -/
def chunk_copy (data : List Byte) (offset k len : Nat) : List Event :=
  [.malloc k len true, .load (.input data.length) offset (len + 1),
      .store (.heap k len) 0 (len + 1)] ++
    (if len > 0 then
      Event.load (.heap k len) 0 1 ::
        (if rd data offset = 35 then [.store (.heap k len) len 1] else [])
     else []) ++
    [.free k]

/-- The loop of `parse_chunks`, one list of events per iteration entered.  `i` is the
`uint8_t` loop counter, `offset` the `size_t` cursor, `k` the number of `malloc` calls
made before.  An iteration ends the loop through `break` (cursor at the end), through
`return` (allocation failed) or goes on to the next one. -/
def chunk_loop (w : World) (data : List Byte) (size count : Nat) :
    Nat → Nat → Nat → Nat → List (List Event)
  | 0, _, _, _ => []
  | fuel + 1, i, offset, k =>
      if i < count ∧ wrap64 (offset + 1) < size then
        let len := chunk_len data offset
        let offset2 := wrap64 (offset + 2)
        if offset2 ≥ size then [chunk_reads data offset]
        else if w.mallocOk k = false then [chunk_reads data offset ++ [.malloc k len false]]
        else
          (chunk_reads data offset ++ chunk_copy data offset2 k len) ::
            chunk_loop w data size count fuel (wrap8 (i + 1)) (wrap64 (offset2 + len)) (k + 1)
      else []

/-- The three forms of an iteration of the loop of `parse_chunks`: `break` after the
prefix, failed allocation, or a chunk copy. -/
def IterShape (data : List Byte) (it : List Event) : Prop :=
  ∃ offset id,
    it = chunk_reads data offset ∨
    it = chunk_reads data offset ++ [.malloc id (chunk_len data offset) false] ∨
    it = chunk_reads data offset ++
      chunk_copy data (wrap64 (offset + 2)) id (chunk_len data offset)

/-- The iterations of the loop of `parse_chunks`.  The counter is a `uint8_t`, so 256
units of fuel cover every run (`chunk_loop_fuel`). -/
def chunk_iters (w : World) (k : Nat) (data : List Byte) (size : Nat) : List (List Event) :=
  if size < 2 then [] else chunk_loop w data size (rd data 0).val 256 0 1 k

/-- Model of `parse_chunks`; `k` is the number of `malloc` calls made before. -/
def parse_chunks (w : World) (k : Nat) (data : List Byte) (size : Nat) : List Event :=
  if size < 2 then []
  else Event.load (.input data.length) 0 1 :: (chunk_iters w k data size).flatten

/-- Contents of `char fmt[128]` when `printf` is called: the first `size` bytes (as far
as they fall into the array) come from `data`, then `fmt[size % sizeof(fmt)] = 0`. -/
def fmt_contents (w : World) (data : List Byte) (size : Nat) : List Byte :=
  ((List.range 128).map fun i => if i < size then rd data i else w.uninit i).set (size % 128) 0

/-- The C string that starts at the beginning of a byte array. -/
def cstring (mem : List Byte) : List Byte := mem.takeWhile fun b => b ≠ 0

/-- Model of `unchecked_format`. -/
def unchecked_format (w : World) (data : List Byte) (size : Nat) : List Event :=
  [.load (.input data.length) 0 size, .store (.stack .fmt 128) 0 size,
    .store (.stack .fmt 128) (size % 128) 1,
    .printf (cstring (fmt_contents w data size)), .puts]

/-- Model of `parse_message`; `k` is the number of `malloc` calls made before. -/
def parse_message (w : World) (k : Nat) (data : Option (List Byte)) (size : Nat) :
    List Event :=
  match data with
  | none => []
  | some d =>
      if size = 0 then []
      else
        let t1 := copy_to_stack d size
        let t2 := heap_overflow w k d size
        let t3 := parse_chunks w (k + mallocs t2) d size
        let t4 := temporal_issues w (k + mallocs t2 + mallocs t3) d size
        t1 ++ t2 ++ t3 ++ t4 ++ instant_crash data size

/-- The tail of `fuzz_entry`: `if (size > 0 && data[0] == '%') unchecked_format(...)`. -/
def format_branch (w : World) (data : Option (List Byte)) (size : Nat) : List Event :=
  if size > 0 then
    match data with
    | none => [.load .null 0 1]
    | some d =>
        Event.load (.input d.length) 0 1 ::
          (if rd d 0 = 37 then unchecked_format w d size else [])
  else []

/-- Model of `fuzz_entry`; `k` is the number of `malloc` calls made before. -/
def fuzz_entry (w : World) (k : Nat) (data : Option (List Byte)) (size : Nat) : List Event :=
  [.enter data size] ++ parse_message w k data size ++ instant_crash data size ++
    format_branch w data size

/-! ## `fuzz_target.cc` -/

/-- The byte `b ^ 0x5A`, stored back into a `uint8_t`. -/
def flip (b : Byte) : Byte := Fin.ofNat (b.val ^^^ 0x5A)

/-- Contents of `uint8_t flipped[512]` after the loop
`for (i = 0; i < copy; ++i) flipped[i] = data[i] ^ 0x5A`. -/
def flipped_contents (w : World) (data : List Byte) (copy : Nat) : List Byte :=
  (List.range copy).foldl (fun fl i => fl.set i (flip (rd data i)))
    ((List.range 512).map w.uninit)

/-- The region behind the pointer `data`. -/
def inputRegion : Option (List Byte) → Region
  | none => .null
  | some d => .input d.length

/-- Events of the mutation loop: one read of `data[i]` and one write of `flipped[i]`
per iteration. -/
def flip_events (data : Option (List Byte)) (copy : Nat) : List Event :=
  ((List.range copy).map fun i =>
    [Event.load (inputRegion data) i 1, Event.store (.stack .flipped 512) i 1]).flatten

/-- The `size_t copy` of `LLVMFuzzerTestOneInput`. -/
def flip_copy (size : Nat) : Nat := if size < 512 then size else 512

/-- The buffer handed to the second `fuzz_entry` call: the first `copy` bytes of
`flipped`. -/
def flipped_buffer (w : World) (data : Option (List Byte)) (size : Nat) : List Byte :=
  (flipped_contents w (data.getD []) (flip_copy size)).take (flip_copy size)

/-- Model of `LLVMFuzzerTestOneInput`. -/
def LLVMFuzzerTestOneInput (w : World) (data : Option (List Byte)) (size : Nat) :
    List Event :=
  let t1 := fuzz_entry w 0 data size
  t1 ++
    (if size > 2 then
      flip_events data (flip_copy size) ++
        fuzz_entry w (mallocs t1) (some (flipped_buffer w data size)) (flip_copy size)
     else [])

/-! ## `instant_crash_afl.c` -/

/-- Size of the harness buffer, `1 << 16`. -/
def MAX_INPUT : Nat := 65536

/-- Model of `main` of the AFL harness on an input file (or standard input) with the
given contents: at most `MAX_INPUT` bytes are read, an empty read returns at once. -/
def afl_main (file : List Byte) : List Event :=
  let len := min file.length MAX_INPUT
  if len ≤ 0 then [] else instant_crash (some (file.take len)) len

/-! ## Concrete inputs used below -/

/-- Ten bytes `'A'`. -/
def tenBytes : List Byte := List.replicate 10 65

/-- The input `FF FF FF FF FF 00 00 00`: the largest `len` and the largest `repeat`. -/
def maxProductInput : List Byte := [255, 255, 255, 255, 255, 0, 0, 0]

/-- The byte `'!'` followed by 64 zero bytes (65 bytes). -/
def bang65 : List Byte := 33 :: List.replicate 64 0

/-- Eleven bytes `'A'`. -/
def elevenBytes : List Byte := List.replicate 11 65

/-- Two chunks: count 2, then the prefix `00 01` with payload `'#'`, then the prefix
`00 00`, then two more bytes. -/
def twoChunks : List Byte := [2, 0, 1, 35, 0, 0, 65, 66]

/-- Eight bytes with `len = 1` and `repeat = 0`, so that `total = 0`. -/
def zeroTotal : List Byte := [0, 0, 0, 1, 0, 9, 9, 9]

/-- The three bytes `"hij"`. -/
def hiBytes : List Byte := [104, 105, 106]

/-- A world in which every allocation succeeds and fresh stack memory holds `0xCC`. -/
def okWorld : World := ⟨fun _ => true, fun _ => 204⟩

/-- The policy of a build without sanitizer in which no memory error traps. -/
def noTrap : Violation → Bool := fun _ => false

/-! ## Theorems -/

theorem wrap64_of_lt {n : Nat} (h : n < 2 ^ 64) : wrap64 n = n := Nat.mod_eq_of_lt h

theorem heap_len_lt (data : List Byte) : heap_len data < 2 ^ 32 := by
  unfold heap_len wrap32; exact Nat.mod_lt _ (by norm_num)

theorem heap_repeat_le (data : List Byte) : heap_repeat data ≤ 4080 := by
  unfold heap_repeat wrap64 wrap32
  have h := (rd data 4).isLt
  omega

/-- C2: at a ten-byte input `instant_crash` performs no null write and returns, and so
does `main` of the AFL harness on a ten-byte file; in general `instant_crash` faults
exactly when `size` differs from 10, not whenever `size > 0`. -/
theorem instant_crash_returns_at_size_10 :
    instant_crash (some tenBytes) 10 = [] ∧
    afl_main tenBytes = [] ∧
    (∀ (traps : Violation → Bool) (data : Option (List Byte)) (size : Nat),
      run traps [] (instant_crash data size) = .faulted ↔ size ≠ 10) := by
  refine ⟨by decide, by decide, ?_⟩
  intro traps data size
  unfold instant_crash
  by_cases h : size = 10
  · simp [h, run]
  · simp [h, run, check, checkAccess, stops]

/-- C4: with a 64-bit `size_t` the product `len * repeat` of `heap_overflow` never wraps:
`total` equals the exact product for every input, also for the input with the largest
`len` and `repeat`, where both are 17523466563600. -/
theorem heap_total_never_wraps :
    heap_total maxProductInput = 17523466563600 ∧
    heap_len maxProductInput * heap_repeat maxProductInput = 17523466563600 ∧
    (∀ data : List Byte, heap_total data = heap_len data * heap_repeat data) := by
  refine ⟨by decide, by decide, ?_⟩
  intro data
  unfold heap_total
  apply wrap64_of_lt
  have h1 := heap_len_lt data
  have h2 := heap_repeat_le data
  calc heap_len data * heap_repeat data ≤ 2 ^ 32 * 4080 := Nat.mul_le_mul h1.le h2
    _ < 2 ^ 64 := by norm_num

/-- C5: on the 65-byte input that starts with `'!'` the extra write of `copy_to_stack`
goes to `buf[1]`, inside the 64-byte buffer; the only violation of the run is the
`memcpy` of 65 bytes. -/
theorem copy_to_stack_extra_write_inside :
    copy_to_stack bang65 65 =
      [.load (.input 65) 0 65, .store (.stack .buf 64) 0 65, .load (.stack .buf 64) 0 1,
        .store (.stack .buf 64) 1 1] ∧
    check [] (.store (.stack .buf 64) 1 1) = none ∧
    violations [] (copy_to_stack bang65 65) = [.outOfBounds (.stack .buf 64) 0 65] := by
  refine ⟨by decide, by decide, by decide⟩

/-- C6: for `size < 8` `heap_overflow` performs no event at all.  For `size >= 8` with a
successful allocation of `total` bytes the copy of `size - 4` bytes into the block is
performed, it is the only violation of the run and it is one exactly when
`total < size - 4`; the write at index `total - 1` is performed exactly when `total > 0`
and lies inside the block. -/
theorem heap_overflow_bounds (w : World) (k : Nat) (data : List Byte) (size : Nat)
    (hv : validInput data size) :
    (size < 8 → heap_overflow w k data size = []) ∧
    (8 ≤ size → w.mallocOk k = true →
      Event.malloc k (heap_total data) true ∈ heap_overflow w k data size ∧
      Event.store (.heap k (heap_total data)) 0 (size - 4) ∈ heap_overflow w k data size ∧
      (check [] (.store (.heap k (heap_total data)) 0 (size - 4)) ≠ none ↔
        heap_total data < size - 4) ∧
      violations [] (heap_overflow w k data size) =
        (if heap_total data < size - 4 then
          [.outOfBounds (.heap k (heap_total data)) 0 (size - 4)] else []) ∧
      (Event.store (.heap k (heap_total data)) (heap_total data - 1) 1 ∈
          heap_overflow w k data size ↔ heap_total data > 0) ∧
      (heap_total data > 0 →
        check [] (.store (.heap k (heap_total data)) (heap_total data - 1) 1) = none)) := by
  obtain ⟨hlen, _⟩ := hv
  refine ⟨fun h => by simp [heap_overflow, h], fun h8 hok => ?_⟩
  have h8' : ¬ size < 8 := by omega
  refine ⟨?_, ?_, ?_, ?_, ?_, ?_⟩
  · simp [heap_overflow, h8', hok]
  · simp [heap_overflow, h8', hok]
  · simp only [check, checkAccess]
    simp
    omega
  · have a4 : 4 ≤ size := by omega
    have a5 : 5 ≤ size := by omega
    have a6 : 4 + (size - 4) ≤ size := by omega
    by_cases ht : heap_total data > 0
    · have h1 : heap_total data - 1 + 1 ≤ heap_total data := by omega
      by_cases hlt : heap_total data < size - 4
      · have : ¬ (size - 4 ≤ heap_total data) := by omega
        simp [heap_overflow, h8', hok, ht, hlt, violations, check, checkAccess,
          Region.inBounds, freedAfter, hlen, this, h1, a4, a5, a6]
      · have : size - 4 ≤ heap_total data := by omega
        simp [heap_overflow, h8', hok, ht, hlt, violations, check, checkAccess,
          Region.inBounds, freedAfter, hlen, this, h1, a4, a5, a6]
    · have h0 : heap_total data = 0 := by omega
      have hlt : 0 < size - 4 := by omega
      have : ¬ (size - 4 ≤ 0) := by omega
      simp [heap_overflow, h8', hok, h0, hlt, violations, check, checkAccess,
        Region.inBounds, freedAfter, hlen, this, a4, a5, a6]
  · by_cases ht : heap_total data > 0
    · simp [heap_overflow, h8', hok, ht]
    · have h0 : heap_total data = 0 := by omega
      simp [heap_overflow, h8', hok, h0]
      omega
  · intro ht
    simp only [check, checkAccess]
    simp
    omega

/-- C8: when its allocation succeeds, `temporal_issues` commits exactly one violation,
and it is a temporal one.  For `size < 4` the run is allocate, copy, free, write at
index 2 of the freed block (use after free), with a single `free`; for `size >= 4` the
run is allocate, copy, free, free (double free), with no write after the first `free`.
The copy of `size` bytes into the `size + 32` byte block is in bounds. -/
theorem temporal_issues_one_error (w : World) (k : Nat) (data : List Byte) (size : Nat)
    (hv : validInput data size) (hok : w.mallocOk k = true) :
    ((violations [] (temporal_issues w k data size)).length = 1 ∧
      ∀ v ∈ violations [] (temporal_issues w k data size), v.isTemporal = true) ∧
    (size < 4 →
      temporal_issues w k data size =
        [.malloc k (size + 32) true, .load (.input size) 0 size,
          .store (.heap k (size + 32)) 0 size, .free k, .store (.heap k (size + 32)) 2 1] ∧
      violations [] (temporal_issues w k data size) = [.useAfterFree k 2]) ∧
    (4 ≤ size →
      temporal_issues w k data size =
        [.malloc k (size + 32) true, .load (.input size) 0 size,
          .store (.heap k (size + 32)) 0 size, .free k, .free k] ∧
      violations [] (temporal_issues w k data size) = [.doubleFree k]) ∧
    check [] (.store (.heap k (wrap64 (size + 32))) 0 size) = none := by
  obtain ⟨hlen, hmax⟩ := hv
  have hw : wrap64 (size + 32) = size + 32 := by
    apply wrap64_of_lt
    unfold PTRDIFF_MAX at hmax
    omega
  refine ⟨?_, fun h4 => ?_, fun h4 => ?_, ?_⟩
  · by_cases h4 : size < 4
    · have h4' : ¬ 4 ≤ size := by omega
      simp [temporal_issues, hok, hw, hlen, h4, h4', violations, check, checkAccess,
        Region.inBounds, freedAfter, Violation.isTemporal]
    · have h4' : 4 ≤ size := by omega
      simp [temporal_issues, hok, hw, hlen, h4, h4', violations, check, checkAccess,
        Region.inBounds, freedAfter, Violation.isTemporal]
  · have h4' : ¬ 4 ≤ size := by omega
    simp [temporal_issues, hok, hw, hlen, h4, h4', violations, check, checkAccess,
      Region.inBounds, freedAfter]
  · have h4' : ¬ size < 4 := by omega
    simp [temporal_issues, hok, hw, hlen, h4, h4', violations, check, checkAccess,
      Region.inBounds, freedAfter]
  · simp [hw, check, checkAccess]

theorem takeWhile_append_stop {α : Type} (p : α → Bool) (a : List α) (x : α) (r : List α)
    (hx : p x = false) : (a ++ x :: r).takeWhile p = a.takeWhile p := by
  induction a with
  | nil => simp [List.takeWhile, hx]
  | cons y ys ih =>
      simp only [List.cons_append, List.takeWhile_cons]
      split <;> simp [ih]

theorem fmt_contents_short (w : World) (data : List Byte) (size : Nat)
    (hlen : data.length = size) (h : size < 128) :
    fmt_contents w data size =
      data ++ 0 :: (List.range (127 - size)).map fun j => w.uninit (size + 1 + j) := by
  apply List.ext_getElem
  · simp [fmt_contents, hlen]; omega
  · intro i h1 h2
    have hm : size % 128 = size := Nat.mod_eq_of_lt h
    simp only [fmt_contents, hm, List.getElem_set, List.getElem_map, List.getElem_range,
      List.getElem_append, List.getElem_cons, rd]
    subst hlen
    by_cases c1 : i < data.length
    · have c2 : ¬ data.length = i := by omega
      simp [c1, c2, List.getD_eq_getElem?_getD, List.getElem?_eq_getElem c1]
    · by_cases c2 : data.length = i
      · simp [c2]
      · have c3 : ¬ i - data.length = 0 := by omega
        have c4 : data.length + 1 + (i - data.length - 1) = i := by omega
        simp [c1, c2, c3, c4]

theorem cstring_fmt_short (w : World) (data : List Byte) (size : Nat)
    (hlen : data.length = size) (h : size < 128) :
    cstring (fmt_contents w data size) = cstring data := by
  rw [fmt_contents_short w data size hlen h]
  unfold cstring
  exact takeWhile_append_stop _ _ _ _ (by simp)

theorem cstring_fmt_zero (w : World) (data : List Byte) (size : Nat)
    (h : size % 128 = 0) : cstring (fmt_contents w data size) = [] := by
  unfold cstring fmt_contents
  rw [h]
  simp [List.range_succ_eq_map, List.takeWhile]

/-- C9: `unchecked_format` commits a violation exactly when `size > 128`, and then it is
the `memcpy` of `size` bytes into the 128-byte array `fmt`; the terminator write at index
`size % 128` is always inside `fmt`.  For `size <= 128` the format string handed to
`printf` is a prefix of the input of at most `size % 128` bytes, hence empty when `size`
is 0 or 128. -/
theorem unchecked_format_overflow (w : World) (data : List Byte) (size : Nat)
    (hv : validInput data size) :
    (violations [] (unchecked_format w data size) ≠ [] ↔ size > 128) ∧
    violations [] (unchecked_format w data size) =
      (if size > 128 then [.outOfBounds (.stack .fmt 128) 0 size] else []) ∧
    (check [] (.store (.stack .fmt 128) 0 size) ≠ none ↔ size > 128) ∧
    check [] (.store (.stack .fmt 128) (size % 128) 1) = none ∧
    Event.printf (cstring (fmt_contents w data size)) ∈ unchecked_format w data size ∧
    (size ≤ 128 →
      cstring (fmt_contents w data size) <+: data ∧
      (cstring (fmt_contents w data size)).length ≤ size % 128 ∧
      (size = 0 ∨ size = 128 → cstring (fmt_contents w data size) = [])) := by
  obtain ⟨hlen, _⟩ := hv
  have hm : size % 128 + 1 ≤ 128 := by
    have := Nat.mod_lt size (show 128 > 0 by norm_num)
    omega
  have hviol : violations [] (unchecked_format w data size) =
      (if size > 128 then [.outOfBounds (.stack .fmt 128) 0 size] else []) := by
    by_cases c : size ≤ 128
    · have c' : ¬ size > 128 := by omega
      simp [unchecked_format, violations, check, checkAccess, Region.inBounds, freedAfter,
        hlen, c, c', hm]
    · have c' : size > 128 := by omega
      simp [unchecked_format, violations, check, checkAccess, Region.inBounds, freedAfter,
        hlen, c, c', hm]
  refine ⟨?_, hviol, ?_, ?_, ?_, ?_⟩
  · rw [hviol]
    by_cases c : size > 128 <;> simp [c]
  · simp [check, checkAccess, Region.inBounds]
  · simp [check, checkAccess, Region.inBounds, hm]
  · simp [unchecked_format]
  · intro hle
    rcases Nat.lt_or_eq_of_le hle with hlt | heq
    · rw [cstring_fmt_short w data size hlen hlt]
      have hp : cstring data <+: data := List.takeWhile_prefix _
      refine ⟨hp, ?_, ?_⟩
      · rw [Nat.mod_eq_of_lt hlt, ← hlen]
        exact hp.length_le
      · rintro (h0 | h0)
        · have : data = [] := List.length_eq_zero.mp (by omega)
          simp [this, cstring]
        · omega
    · have hz : size % 128 = 0 := by simp [heq]
      rw [cstring_fmt_zero w data size hz]
      simp

theorem run_null_store (traps : Violation → Bool) (pre post : List Event) (off len : Nat) :
    ∀ freed : List Nat, run traps freed (pre ++ Event.store .null off len :: post) = .faulted := by
  induction pre with
  | nil => intro freed; simp [run, check, checkAccess, stops]
  | cons e es ih =>
      intro freed
      simp only [List.cons_append, run]
      cases check freed e with
      | none => exact ih _
      | some v =>
          by_cases hs : stops traps v = true
          · simp [hs]
          · simp [hs]; exact ih _

/-- C1: for every input, null or not, whose `size` differs from 10, `fuzz_entry` does not
return: under every trap policy, every allocation behaviour and every set of blocks
freed before, the run ends in a fault, at the latest at the null write of
`instant_crash`, which is part of the trace. -/
theorem fuzz_entry_faults (w : World) (k : Nat) (traps : Violation → Bool)
    (freed : List Nat) (data : Option (List Byte)) (size : Nat) (h : size ≠ 10) :
    run traps freed (fuzz_entry w k data size) = .faulted ∧
    Event.store .null 0 4 ∈ fuzz_entry w k data size := by
  have hi : instant_crash data size = [.store .null 0 4] := by simp [instant_crash, h]
  constructor
  · unfold fuzz_entry
    rw [hi, List.append_assoc, List.singleton_append]
    exact run_null_store traps _ _ 0 4 freed
  · simp [fuzz_entry, hi]

theorem first_call_returns_only_at_size_10 (w : World) (k : Nat) (traps : Violation → Bool)
    (freed : List Nat) (data : Option (List Byte)) (size : Nat)
    (h : run traps freed (fuzz_entry w k data size) = .returned) : size = 10 := by
  by_contra hne
  have hi : instant_crash data size = [.store .null 0 4] := by simp [instant_crash, hne]
  have hf : run traps freed (fuzz_entry w k data size) = .faulted := by
    unfold fuzz_entry
    rw [hi, List.append_assoc, List.singleton_append]
    exact run_null_store traps _ _ 0 4 freed
  rw [hf] at h
  cases h

theorem flip_val (b : Byte) : (flip b).val = b.val ^^^ 0x5A := by
  have h : b.val ^^^ 0x5A < 2 ^ 8 := Nat.xor_lt_two_pow b.isLt (by norm_num)
  simp only [flip, Fin.ofNat, Fin.val_mk]
  exact Nat.mod_eq_of_lt h

theorem flip_fold_length (data : List Byte) (l : List Nat) :
    ∀ init : List Byte,
      (l.foldl (fun fl i => fl.set i (flip (rd data i))) init).length = init.length := by
  induction l with
  | nil => intro init; rfl
  | cons a as ih => intro init; simp [List.foldl_cons, ih]

theorem flip_fold_get (data : List Byte) (init : List Byte) (n : Nat) (hn : n ≤ init.length) :
    ∀ i, i < n →
      ((List.range n).foldl (fun fl i => fl.set i (flip (rd data i))) init)[i]? =
        some (flip (rd data i)) := by
  induction n with
  | zero => intro i hi; omega
  | succ m ih =>
      intro i hi
      rw [List.range_succ, List.foldl_append]
      simp only [List.foldl_cons, List.foldl_nil]
      have hl := flip_fold_length data (List.range m) init
      by_cases c : i = m
      · subst c
        rw [List.getElem?_set_self]
        simp [hl]
        omega
      · rw [List.getElem?_set_ne (by omega)]
        exact ih (by omega) i (by omega)

theorem flipped_buffer_length (w : World) (data : List Byte) (size : Nat) :
    (flipped_buffer w (some data) size).length = min size 512 := by
  unfold flipped_buffer flipped_contents
  rw [List.length_take, flip_fold_length]
  simp [flip_copy]
  split <;> omega

theorem flipped_buffer_get (w : World) (data : List Byte) (size i : Nat)
    (hi : i < min size 512) :
    (flipped_buffer w (some data) size)[i]? = some (flip (rd data i)) := by
  have hc : flip_copy size = min size 512 := by unfold flip_copy; split <;> omega
  unfold flipped_buffer flipped_contents
  rw [hc, List.getElem?_take_of_lt hi]
  exact flip_fold_get data _ _ (by simp) i hi

theorem flip_events_mem (data : Option (List Byte)) (copy : Nat) (e : Event) :
    e ∈ flip_events data copy ↔
      ∃ i, i < copy ∧ (e = .load (inputRegion data) i 1 ∨ e = .store (.stack .flipped 512) i 1) := by
  unfold flip_events
  simp only [List.mem_flatten, List.mem_map, List.mem_range]
  constructor
  · rintro ⟨l, ⟨i, hi, rfl⟩, he⟩
    refine ⟨i, hi, ?_⟩
    simpa using he
  · rintro ⟨i, hi, he⟩
    exact ⟨_, ⟨i, hi, rfl⟩, by simpa using he⟩

/-- C3: for `size <= 2` the run of `LLVMFuzzerTestOneInput` is the run of the first
`fuzz_entry` call alone: no mutation, no second call.  For `size > 2` the run is the first
call, then the mutation loop, then the second call `fuzz_entry(flipped, copy)` with
`copy = min(size, 512)`; the buffer handed over has `copy` bytes, byte `i` is
`data[i] ^ 0x5A`, and the loop consists exactly of the reads `data[i]` and the writes
`flipped[i]` for `i < copy`, all of them in bounds (`i < size`, `i < 512`). -/
theorem LLVMFuzzerTestOneInput_second_call (w : World) (data : List Byte) (size : Nat)
    (hv : validInput data size) :
    (size ≤ 2 →
      LLVMFuzzerTestOneInput w (some data) size = fuzz_entry w 0 (some data) size) ∧
    (size > 2 →
      LLVMFuzzerTestOneInput w (some data) size =
        fuzz_entry w 0 (some data) size ++
          (flip_events (some data) (min size 512) ++
            fuzz_entry w (mallocs (fuzz_entry w 0 (some data) size))
              (some (flipped_buffer w (some data) size)) (min size 512)) ∧
      Event.enter (some (flipped_buffer w (some data) size)) (min size 512) ∈
        LLVMFuzzerTestOneInput w (some data) size ∧
      (flipped_buffer w (some data) size).length = min size 512 ∧
      (∀ i, i < min size 512 →
        ∃ b, (flipped_buffer w (some data) size)[i]? = some b ∧
          b.val = (rd data i).val ^^^ 0x5A ∧ data[i]? = some (rd data i)) ∧
      (∀ e ∈ flip_events (some data) (min size 512),
        ∃ i, i < min size 512 ∧
          (e = .load (.input size) i 1 ∨ e = .store (.stack .flipped 512) i 1)) ∧
      (∀ i, i < min size 512 →
        Event.load (.input size) i 1 ∈ flip_events (some data) (min size 512) ∧
        Event.store (.stack .flipped 512) i 1 ∈ flip_events (some data) (min size 512)) ∧
      (∀ freed, ∀ e ∈ flip_events (some data) (min size 512), check freed e = none)) := by
  obtain ⟨hlen, _⟩ := hv
  have hc : flip_copy size = min size 512 := by unfold flip_copy; split <;> omega
  refine ⟨fun h2 => ?_, fun h2 => ?_⟩
  · have : ¬ size > 2 := by omega
    simp [LLVMFuzzerTestOneInput, this]
  · have hstruct : LLVMFuzzerTestOneInput w (some data) size =
        fuzz_entry w 0 (some data) size ++
          (flip_events (some data) (min size 512) ++
            fuzz_entry w (mallocs (fuzz_entry w 0 (some data) size))
              (some (flipped_buffer w (some data) size)) (min size 512)) := by
      simp [LLVMFuzzerTestOneInput, h2, hc]
    refine ⟨hstruct, ?_, flipped_buffer_length w data size, ?_, ?_, ?_, ?_⟩
    · rw [hstruct]
      simp [fuzz_entry]
    · intro i hi
      refine ⟨flip (rd data i), flipped_buffer_get w data size i hi, flip_val _, ?_⟩
      have : i < data.length := by omega
      simp [rd, List.getD_eq_getElem?_getD, List.getElem?_eq_getElem this]
    · intro e he
      obtain ⟨i, hi, h⟩ := (flip_events_mem _ _ _).mp he
      exact ⟨i, hi, by simpa [inputRegion, hlen] using h⟩
    · intro i hi
      constructor
      · exact (flip_events_mem _ _ _).mpr ⟨i, hi, Or.inl (by simp [inputRegion, hlen])⟩
      · exact (flip_events_mem _ _ _).mpr ⟨i, hi, Or.inr rfl⟩
    · intro freed e he
      obtain ⟨i, hi, h⟩ := (flip_events_mem _ _ _).mp he
      rcases h with h | h
      · subst h
        have : i + 1 ≤ data.length := by omega
        simp [check, checkAccess, inputRegion, Region.inBounds, this]
      · subst h
        have : i + 1 ≤ 512 := by omega
        simp [check, checkAccess, Region.inBounds, this]

theorem chunk_loop_shape (w : World) (data : List Byte) (size count : Nat) :
    ∀ fuel i offset k, ∀ it ∈ chunk_loop w data size count fuel i offset k,
      IterShape data it := by
  intro fuel
  induction fuel with
  | zero => intro i offset k it h; simp [chunk_loop] at h
  | succ f ih =>
      intro i offset k it h
      simp only [chunk_loop] at h
      split at h
      · split at h
        · simp only [List.mem_singleton] at h
          exact ⟨offset, k, Or.inl h⟩
        · split at h
          · simp only [List.mem_singleton] at h
            exact ⟨offset, k, Or.inr (Or.inl h)⟩
          · rcases List.mem_cons.mp h with h | h
            · exact ⟨offset, k, Or.inr (Or.inr h)⟩
            · exact ih _ _ _ it h
      · simp at h

theorem chunk_loop_length (w : World) (data : List Byte) (size count : Nat)
    (hc : count ≤ 255) :
    ∀ fuel i offset k, (chunk_loop w data size count fuel i offset k).length ≤ count - i := by
  intro fuel
  induction fuel with
  | zero => intro i offset k; simp [chunk_loop]
  | succ f ih =>
      intro i offset k
      simp only [chunk_loop]
      split
      · rename_i hcond
        have hi : wrap8 (i + 1) = i + 1 := by unfold wrap8; omega
        split
        · simp; omega
        · split
          · simp; omega
          · have := ih (wrap8 (i + 1)) (wrap64 (wrap64 (offset + 2) + chunk_len data offset)) (k + 1)
            simp only [List.length_cons]
            omega
      · simp

theorem chunk_loop_fuel (w : World) (data : List Byte) (size count : Nat)
    (hc : count ≤ 255) :
    ∀ fuel i offset k, count - i ≤ fuel →
      chunk_loop w data size count (fuel + 1) i offset k =
        chunk_loop w data size count fuel i offset k := by
  intro fuel
  induction fuel with
  | zero =>
      intro i offset k h
      have : ¬ i < count := by omega
      simp [chunk_loop, this]
  | succ f ih =>
      intro i offset k h
      rw [chunk_loop, chunk_loop]
      by_cases c1 : i < count ∧ wrap64 (offset + 1) < size
      · have hi : wrap8 (i + 1) = i + 1 := by unfold wrap8; omega
        have hrec := ih (i + 1) (wrap64 (wrap64 (offset + 2) + chunk_len data offset)) (k + 1)
          (by omega)
        by_cases c2 : wrap64 (offset + 2) ≥ size
        · simp [c1, c2]
        · by_cases c3 : w.mallocOk k = false
          · simp [c1, c2, c3]
          · simp [c1, c2, c3, hi, hrec]
      · simp [c1]

theorem chunk_loop_fuel_add (w : World) (data : List Byte) (size count : Nat)
    (hc : count ≤ 255) (offset k : Nat) :
    ∀ extra, chunk_loop w data size count (count + extra) 0 offset k =
      chunk_loop w data size count count 0 offset k := by
  intro extra
  induction extra with
  | zero => rfl
  | succ e ih =>
      rw [← Nat.add_assoc, chunk_loop_fuel w data size count hc _ 0 offset k (by omega), ih]

theorem mem_parse_chunks (w : World) (k : Nat) (data : List Byte) (size : Nat) (e : Event)
    (h : e ∈ parse_chunks w k data size) :
    e = .load (.input data.length) 0 1 ∨ ∃ it ∈ chunk_iters w k data size, e ∈ it := by
  unfold parse_chunks at h
  split at h
  · simp at h
  · rcases List.mem_cons.mp h with h | h
    · exact Or.inl h
    · exact Or.inr (List.mem_flatten.mp h)

theorem mem_parse_chunks_of_iter (w : World) (k : Nat) (data : List Byte) (size : Nat)
    (e : Event) (it : List Event) (hit : it ∈ chunk_iters w k data size) (he : e ∈ it) :
    e ∈ parse_chunks w k data size := by
  unfold parse_chunks
  split
  · rename_i h2
    simp [chunk_iters, h2] at hit
  · exact List.mem_cons_of_mem _ (List.mem_flatten.mpr ⟨it, hit, he⟩)

theorem chunk_iters_shape (w : World) (k : Nat) (data : List Byte) (size : Nat) :
    ∀ it ∈ chunk_iters w k data size, IterShape data it := by
  intro it h
  unfold chunk_iters at h
  split at h
  · simp at h
  · exact chunk_loop_shape w data size _ _ _ _ _ it h

theorem chunk_iters_first (w : World) (k : Nat) (data : List Byte) (size : Nat) :
    chunk_iters w k data size =
      if size < 2 then []
      else if 0 < (rd data 0).val ∧ 2 < size then
        if 3 ≥ size then [chunk_reads data 1]
        else if w.mallocOk k = false then
          [chunk_reads data 1 ++ [.malloc k (chunk_len data 1) false]]
        else
          (chunk_reads data 1 ++ chunk_copy data 3 k (chunk_len data 1)) ::
            chunk_loop w data size (rd data 0).val 255 1 (wrap64 (3 + chunk_len data 1)) (k + 1)
      else [] := by
  unfold chunk_iters
  have hstep : chunk_loop w data size (rd data 0).val 256 0 1 k =
      chunk_loop w data size (rd data 0).val (255 + 1) 0 1 k := rfl
  rw [hstep, chunk_loop]
  have h2 : wrap64 (1 + 1) = 2 := by decide
  have h3 : wrap64 (1 + 2) = 3 := by decide
  have h1 : wrap8 (0 + 1) = 1 := by decide
  simp only [h1, h2, h3]

/-- C7: every iteration of the loop of `parse_chunks` is a `break` after the length
prefix, a failed allocation, or a chunk copy; a chunk copy allocates `len` bytes, `len`
being the big-endian 16-bit prefix, and copies `len + 1` bytes into the block.  Every
write of `parse_chunks` goes to a heap block and ends exactly one byte past its end.  If
the first allocation succeeds, a copy is executed exactly when `size >= 4` and
`data[0] >= 1`; otherwise the routine allocates and writes nothing, it only reads single
bytes of the input.  The loop makes at most `data[0]` iterations and ends by its own exit
conditions: more fuel than 256 does not change the run. -/
theorem parse_chunks_off_by_one (w : World) (k : Nat) (data : List Byte) (size : Nat) :
    (∀ it ∈ chunk_iters w k data size, IterShape data it) ∧
    (∀ id n ok, Event.malloc id n ok ∈ parse_chunks w k data size →
      (∃ offset, n = chunk_len data offset) ∧
      (ok = true → Event.store (.heap id n) 0 (n + 1) ∈ parse_chunks w k data size)) ∧
    (∀ r off n, Event.store r off n ∈ parse_chunks w k data size →
      ∃ id cap, r = .heap id cap ∧ off + n = cap + 1 ∧
        check [] (.store r off n) = some (.outOfBounds r off n)) ∧
    (w.mallocOk k = true →
      ((∃ id n, Event.store (.heap id n) 0 (n + 1) ∈ parse_chunks w k data size) ↔
        4 ≤ size ∧ 1 ≤ (rd data 0).val)) ∧
    (¬ (4 ≤ size ∧ 1 ≤ (rd data 0).val) →
      ∀ e ∈ parse_chunks w k data size, ∃ off, e = .load (.input data.length) off 1) ∧
    (chunk_iters w k data size).length ≤ (rd data 0).val ∧
    (∀ extra, chunk_loop w data size (rd data 0).val (256 + extra) 0 1 k =
      chunk_loop w data size (rd data 0).val 256 0 1 k) := by
  have hcount : (rd data 0).val ≤ 255 := by have := (rd data 0).isLt; omega
  refine ⟨chunk_iters_shape w k data size, ?_, ?_, ?_, ?_, ?_, ?_⟩
  · intro id n ok h
    rcases mem_parse_chunks w k data size _ h with h | ⟨it, hit, he⟩
    · simp at h
    · obtain ⟨offset, id', hs | hs | hs⟩ := chunk_iters_shape w k data size it hit
      · subst hs; simp [chunk_reads] at he
      · subst hs
        simp [chunk_reads] at he
        obtain ⟨-, rfl, rfl⟩ := he
        exact ⟨⟨offset, rfl⟩, by simp⟩
      · have he' := he
        rw [hs] at he'
        simp only [chunk_reads, chunk_copy, List.mem_append, List.mem_cons,
          List.mem_singleton] at he'
        have hm : id = id' ∧ n = chunk_len data offset ∧ ok = true := by
          rcases he' with (h | h | h) | ((h | h | h | h) | h) | h
          all_goals first
            | (simp at h; done)
            | (injection h with a b c; exact ⟨a, b, c⟩)
        obtain ⟨rfl, rfl, rfl⟩ := hm
        refine ⟨⟨offset, rfl⟩, fun _ => ?_⟩
        apply mem_parse_chunks_of_iter w k data size _ it hit
        rw [hs]
        simp [chunk_copy]
  · intro r off n h
    rcases mem_parse_chunks w k data size _ h with h | ⟨it, hit, he⟩
    · simp at h
    · obtain ⟨offset, id', hs | hs | hs⟩ := chunk_iters_shape w k data size it hit
      · subst hs; simp [chunk_reads] at he
      · subst hs; simp [chunk_reads] at he
      · rw [hs] at he
        simp only [chunk_reads, chunk_copy, List.mem_append, List.mem_cons,
          List.mem_singleton] at he
        have hm : r = .heap id' (chunk_len data offset) ∧
            off + n = chunk_len data offset + 1 := by
          rcases he with (h | h | h) | ((h | h | h | h) | h) | h
          all_goals first
            | (simp at h; done)
            | (injection h with a b c; subst a b c; exact ⟨rfl, by omega⟩)
            | (split at h <;> simp at h
               obtain ⟨-, b, c, d⟩ := h
               subst b c d
               exact ⟨rfl, rfl⟩)
        obtain ⟨rfl, hsum⟩ := hm
        refine ⟨id', _, rfl, hsum, ?_⟩
        have : ¬ off + n ≤ chunk_len data offset := by omega
        simp [check, checkAccess, this]
  · intro hok
    rw [parse_chunks, chunk_iters_first]
    constructor
    · rintro ⟨id, n, h⟩
      by_cases c2 : size < 2
      · simp [c2] at h
      · by_cases c0 : 0 < (rd data 0).val ∧ 2 < size
        · by_cases c3 : 3 ≥ size
          · simp [c2, c0, c3, chunk_reads] at h
          · omega
        · simp [c2, c0] at h
    · rintro ⟨h4, h1⟩
      have c2 : ¬ size < 2 := by omega
      have c0 : 0 < (rd data 0).val ∧ 2 < size := ⟨by omega, by omega⟩
      have c3 : ¬ 3 ≥ size := by omega
      refine ⟨k, chunk_len data 1, ?_⟩
      simp [c2, c0, c3, hok, chunk_copy]
  · intro hn e h
    rw [parse_chunks, chunk_iters_first] at h
    by_cases c2 : size < 2
    · simp [c2] at h
    · by_cases c0 : 0 < (rd data 0).val ∧ 2 < size
      · have c3 : 3 ≥ size := by omega
        simp only [c2, c0, c3, if_true, if_false, and_self, chunk_reads, List.flatten_cons,
          List.flatten_nil, List.append_nil, List.mem_cons] at h
        rcases h with h | h | h | h
        · exact ⟨0, h⟩
        · exact ⟨1, h⟩
        · exact ⟨1 + 1, h⟩
        · simp at h
      · simp only [c2, c0, if_false, List.flatten_nil, List.mem_cons] at h
        rcases h with h | h
        · exact ⟨0, h⟩
        · simp at h
  · unfold chunk_iters
    split
    · simp
    · simpa using chunk_loop_length w data size _ hcount 256 0 1 k
  · intro extra
    have h1 := chunk_loop_fuel_add w data size _ hcount 1 k (256 - (rd data 0).val + extra)
    have h2 := chunk_loop_fuel_add w data size _ hcount 1 k (256 - (rd data 0).val)
    have e1 : (rd data 0).val + (256 - (rd data 0).val + extra) = 256 + extra := by omega
    have e2 : (rd data 0).val + (256 - (rd data 0).val) = 256 := by omega
    rw [e1] at h1
    rw [e2] at h2
    rw [h1, h2]

theorem fuzz_entry_faults_witness :
    (11 : Nat) ≠ 10 ∧
    run noTrap [] (fuzz_entry okWorld 0 (some elevenBytes) 11) = .faulted ∧
    Event.store .null 0 4 ∈ fuzz_entry okWorld 0 (some elevenBytes) 11 :=
  ⟨by decide, fuzz_entry_faults okWorld 0 noTrap [] (some elevenBytes) 11 (by decide)⟩

set_option maxRecDepth 100000 in
theorem LLVMFuzzerTestOneInput_second_call_witness :
    validInput tenBytes 10 ∧ 10 > 2 ∧
    run noTrap [] (fuzz_entry okWorld 0 (some tenBytes) 10) = .returned ∧
    flipped_buffer okWorld (some tenBytes) 10 = List.replicate 10 27 ∧
    (flipped_buffer okWorld (some tenBytes) 10).length = min 10 512 :=
  ⟨by decide, by decide, by decide, by decide,
    ((LLVMFuzzerTestOneInput_second_call okWorld tenBytes 10 (by decide)).2 (by decide)).2.2.1⟩

theorem heap_overflow_bounds_witness :
    validInput zeroTotal 8 ∧ 8 ≤ 8 ∧ okWorld.mallocOk 0 = true ∧ heap_total zeroTotal = 0 ∧
    violations [] (heap_overflow okWorld 0 zeroTotal 8) =
      (if heap_total zeroTotal < 8 - 4 then
        [.outOfBounds (.heap 0 (heap_total zeroTotal)) 0 (8 - 4)] else []) :=
  ⟨by decide, by decide, rfl, by decide,
    ((heap_overflow_bounds okWorld 0 zeroTotal 8 (by decide)).2 (by decide) rfl).2.2.2.1⟩

theorem parse_chunks_off_by_one_witness :
    okWorld.mallocOk 0 = true ∧
    violations [] (parse_chunks okWorld 0 twoChunks 8) =
      [.outOfBounds (.heap 0 1) 0 2, .outOfBounds (.heap 0 1) 1 1,
        .outOfBounds (.heap 1 0) 0 1] ∧
    ((∃ id n, Event.store (.heap id n) 0 (n + 1) ∈ parse_chunks okWorld 0 twoChunks 8) ↔
      4 ≤ 8 ∧ 1 ≤ (rd twoChunks 0).val) :=
  ⟨rfl, by decide, (parse_chunks_off_by_one okWorld 0 twoChunks 8).2.2.2.1 rfl⟩

theorem temporal_issues_one_error_witness :
    validInput hiBytes 3 ∧ okWorld.mallocOk 0 = true ∧ 3 < 4 ∧
    violations [] (temporal_issues okWorld 0 hiBytes 3) = [.useAfterFree 0 2] :=
  ⟨by decide, rfl, by decide,
    ((temporal_issues_one_error okWorld 0 hiBytes 3 (by decide) rfl).2.1 (by decide)).2⟩

theorem unchecked_format_overflow_witness :
    validInput hiBytes 3 ∧ 3 ≤ 128 ∧
    cstring (fmt_contents okWorld hiBytes 3) = hiBytes ∧
    cstring (fmt_contents okWorld hiBytes 3) <+: hiBytes :=
  ⟨by decide, by decide, by decide,
    ((unchecked_format_overflow okWorld hiBytes 3 (by decide)).2.2.2.2.2 (by decide)).1⟩

end MiniCrs
